import Mathlib

/-!
# Verification of the stalagmite small-prime factorization engine

Shallow embedding of `stalagmite-base/src/factor`:
* `prime_cache.rs` — growable cache of the first primes,
* `trial_division/trial_range.rs` — binary-lifted power extraction,
* `trial_division/trial_tree.rs` — GCD product tree over the first 3512 primes,
* `trial_division/trial.rs` — the trial-division engine `factor_trial`.

Machine integers (`u64`, `usize`) are modelled as `Nat`; no arithmetic in the
verified paths overflows 64 bits (all cached primes are below `2 ^ 16`, so the
four-prime leaf products are below `2 ^ 64`).  The source's unbounded `while`
loops are embedded with an explicit fuel argument; a fuel bound that is
provably sufficient on every reachable state is supplied at each call site.
-/

/-- The initial prime cache (`get_prime_cache` seeds the global cache with the
first 10 primes). -/
def initCache : List Nat := [2, 3, 5, 7, 11, 13, 17, 19, 23, 29]

/-- Counting loop for `isqrt`: increase `r` while `(r+1)^2` still fits below `n`. -/
def isqrtAux (n : Nat) : Nat → Nat → Nat
  | 0, r => r
  | fuel + 1, r => if (r + 1) * (r + 1) ≤ n then isqrtAux n fuel (r + 1) else r

/-- Integer square root, modelling the source's `(n as f64).sqrt() as u64`.
For every `n < 2 ^ 52` the IEEE double-precision square root of an exactly
represented `n`, truncated, is exactly `⌊√n⌋`; every candidate the cache code
can feasibly test lies far below this bound, so the floor square root is the
faithful model. -/
def isqrt (n : Nat) : Nat := isqrtAux n n 0

/-- Trial-division loop of `is_prime_using_cache`: scan the cached primes in
order, stop at the first one exceeding `sqrt_n` (the `break`), report `false`
on the first divisor found. -/
def trialLoop (n : Nat) (sqrt_n : Nat) : List Nat → Bool
  | [] => true
  | p :: ps =>
    if sqrt_n < p then true
    else if n % p = 0 then false
    else trialLoop n sqrt_n ps

/-- `is_prime_using_cache` from `prime_cache.rs`: reject `n < 2` and even `n`
(the unguarded short-circuit also rejects the literal 2), then trial-divide by
every cached prime up to `isqrt n`. -/
def is_prime_using_cache (n : Nat) (cache : List Nat) : Bool :=
  if n < 2 then false
  else if n % 2 = 0 then false
  else trialLoop n (isqrt n) cache

/-- The candidate-scanning loop of `extend_cache_to`.  The source loop
`while cache.len() < target` is unbounded; `fuel` bounds the number of
candidates examined and is chosen provably large enough at the call site. -/
def extendLoop : Nat → Nat → List Nat → Nat → List Nat
  | 0, _, cache, _ => cache
  | fuel + 1, target, cache, candidate =>
    if cache.length < target then
      extendLoop fuel target
        (if is_prime_using_cache candidate cache then cache ++ [candidate] else cache)
        (candidate + 2)
    else cache

/-- `extend_cache_to` from `prime_cache.rs`: scan odd candidates upward from
`cache.last().unwrap() + 2`, appending every candidate the trial-division
predicate accepts, until the cache holds `target_size` entries.  The source
call unwraps a nonempty cache (every reachable cache contains the 10 seed
primes); `2 ^ (target + 1)` candidates are provably enough fuel on every
cache that is an initial segment of the primes (`extendLoop_spec`). -/
def extend_cache_to (cache : List Nat) (target_size : Nat) : List Nat :=
  extendLoop (2 ^ (target_size + 1)) target_size cache (cache.getLastD 0 + 2)

/-- `ensure_primes_computed`: in the sequential model the double-checked
locking collapses to a single length test followed by an extension. -/
def ensure_primes_computed (count : Nat) (cache : List Nat) : List Nat :=
  if count ≤ cache.length then cache else extend_cache_to cache count

/-- `get_nth_prime_using_cache`: ensure `n + 1` primes, then read index `n`.
Returns the prime together with the updated cache state. -/
def get_nth_prime_using_cache (n : Nat) (cache : List Nat) : Nat × List Nat :=
  let c := ensure_primes_computed (n + 1) cache
  (c.getD n 0, c)

/-- One mutation of the process-wide cache: a caller either runs
`ensure_primes_computed` or (holding the write lock) `extend_cache_to`. -/
inductive CacheOp where
  | ensure (count : Nat) : CacheOp
  | extend (target : Nat) : CacheOp

/-- Apply one cache operation to a cache state. -/
def applyOp (cache : List Nat) : CacheOp → List Nat
  | .ensure count => ensure_primes_computed count cache
  | .extend target => extend_cache_to cache target

/-- Run a sequence of cache operations from a starting state. -/
def applyOps (cache : List Nat) (ops : List CacheOp) : List Nat :=
  ops.foldl applyOp cache


-- ------------------------------------------------------------------
-- Power extraction (`trial_range.rs`)
-- ------------------------------------------------------------------

/-- Fueled loop counting trailing zero bits. -/
def tzAux : Nat → Nat → Nat
  | 0, _ => 0
  | fuel + 1, n => if n % 2 = 0 ∧ n ≠ 0 then tzAux fuel (n / 2) + 1 else 0

/-- `Natural::trailing_zeros` of the malachite collaborator, for nonzero
input (the source only calls it on nonzero values). -/
def trailingZeros (n : Nat) : Nat := tzAux n n

/-- Phase 1 of `remove_power_ascending`: binary lifting.  State is
`(n, squares, i, exp)` where `squares[j] = p^(2^j)`.  Each successful
iteration divides `n` by at least 2, so `n + 1` fuel always suffices. -/
def ascendLoop : Nat → Nat → List Nat → Nat → Nat → Nat × List Nat × Nat × Nat
  | 0, n, sq, i, exp => (n, sq, i, exp)
  | fuel + 1, n, sq, i, exp =>
    let s := sq.getD i 0
    if n % s = 0 then
      let n2 := n / s
      let exp2 := exp + 2 ^ i
      let next := s * s
      if n2 < next then (n2, sq, i, exp2)
      else ascendLoop fuel n2 (sq ++ [next]) (i + 1) exp2
    else (n, sq, i - 1, exp)

/-- Phase 2 of `remove_power_ascending`: walk back down from index `i`,
dividing once per level where `squares[i] ≤ n` still divides `n`.
Returns `(exp, n)`. -/
def descendLoop (sq : List Nat) : Nat → Nat → Nat → Nat × Nat
  | 0, n, exp =>
    let s := sq.getD 0 0
    if s ≤ n ∧ n % s = 0 then (exp + 1, n / s) else (exp, n)
  | i + 1, n, exp =>
    let s := sq.getD (i + 1) 0
    if s ≤ n ∧ n % s = 0 then descendLoop sq i (n / s) (exp + 2 ^ (i + 1))
    else descendLoop sq i n exp

/-- `remove_power_ascending` from `trial_range.rs`: ascending binary lifting
followed by the descending cleanup.  Returns the accumulated exponent and the
reduced value (the source mutates `n` in place). -/
def remove_power_ascending (n p : Nat) : Nat × Nat :=
  match ascendLoop (n + 1) n [p] 0 0 with
  | (n2, sq, i, exp) => descendLoop sq i n2 exp

/-- `remove_power` from `trial_range.rs`.  Returns `none` for `n = 0`,
otherwise the extracted exponent and the reduced value. -/
def remove_power (n p : Nat) : Option (Nat × Nat) :=
  if n = 0 then none
  else if n < p then some (0, n)
  else if p = 2 then
    let e := trailingZeros n
    some (e, n >>> e)
  else if n % p = 0 then
    let r := remove_power_ascending (n / p) p
    some (1 + r.1, r.2)
  else some (0, n)

-- ------------------------------------------------------------------
-- The product tree (`trial_tree.rs`)
-- ------------------------------------------------------------------

/-- Modelled from the spec: the crate-level `LIMB_BITS` constant (declared
outside the factor module) is the native word width; the spec fixes the
64-bit limb configuration ("4 primes per group on a 64-bit limb"). -/
def LIMB_BITS : Nat := 64

def FACTOR_TREE_LEVELS : Nat := 13 - LIMB_BITS / 32

def FACTOR_TREE_ENTRIES_PER_LEVEL : Nat := 4096 / (LIMB_BITS / 16)

/-- The cache snapshot the product tree is built from:
`FactorTrialTree::initialize` calls `ensure_primes_computed(3512)` on the
seeded global cache before reading it. -/
def primes3512 : List Nat := ensure_primes_computed 3512 initCache

/-- `build_first_layer` (64-bit branch): entry `j` holds the product of the
four consecutive cached primes starting at index `4 * j`; entries past the
878 filled groups keep their `Natural::ZERO` initialization. -/
def treeLevel0 : List Nat :=
  (List.range FACTOR_TREE_ENTRIES_PER_LEVEL).map fun j =>
    if 4 * j < 3512 then
      primes3512.getD (4 * j) 0 * primes3512.getD (4 * j + 1) 0 *
        primes3512.getD (4 * j + 2) 0 * primes3512.getD (4 * j + 3) 0
    else 0

/-- The `entries_count` sequence of `build_remaining_layers`. -/
def layerCounts : Nat → Nat
  | 0 => 878
  | l + 1 => (layerCounts l + 1) / 2

/-- One iteration of `build_remaining_layers`: pair adjacent entries of the
previous level, carry an odd trailing entry unchanged, leave the zero
initialization elsewhere. -/
def nextLayer (prev : List Nat) (cnt : Nat) : List Nat :=
  (List.range FACTOR_TREE_ENTRIES_PER_LEVEL).map fun k =>
    if 2 * k + 1 < cnt then prev.getD (2 * k) 0 * prev.getD (2 * k + 1) 0
    else if cnt % 2 = 1 ∧ 2 * k + 1 = cnt then prev.getD (cnt - 1) 0
    else 0

/-- The levels of the initialized `FactorTrialTree`. -/
def treeLevel : Nat → List Nat
  | 0 => treeLevel0
  | l + 1 => nextLayer (treeLevel l) (layerCounts l)

/-- `FactorTrialTree::get_entry`: `tree.get(level)?.get(index)` over 11
levels of 1024 entries each. -/
def get_entry (level idx : Nat) : Option Nat :=
  if level < FACTOR_TREE_LEVELS ∧ idx < FACTOR_TREE_ENTRIES_PER_LEVEL then
    some ((treeLevel level).getD idx 0)
  else none

/-- `bit_count` from `trial_tree.rs` (`floor_log_base_2 + 1`, and 0 for 0). -/
def bit_count (n : Nat) : Nat := if n == 0 then 0 else Nat.log2 n + 1

/-- The entry index used by `should_check_group` at a given level: the root
of the walk sits at index 0, deeper levels use the masked shifted group
index. -/
def sccIdx (g m lvl : Nat) : Nat :=
  if lvl = m then 0 else (g >>> lvl) &&& ((1 <<< (m - lvl)) - 1)

/-- The level walk of `should_check_group`, from `lvl` down to 0, carrying
the running GCD; a missing entry or a GCD of 1 prunes the group. -/
def sccAux (g m : Nat) : Nat → Nat → Bool
  | 0, cur =>
    match get_entry 0 (sccIdx g m 0) with
    | some e => if Nat.gcd cur e = 1 then false else true
    | none => false
  | lvl + 1, cur =>
    match get_entry (lvl + 1) (sccIdx g m (lvl + 1)) with
    | some e =>
      let cur2 := Nat.gcd cur e
      if cur2 = 1 then false else sccAux g m lvl cur2
    | none => false

/-- `should_check_group` from `trial_tree.rs`: walk the path from the
effective root (level `m`) down to leaf group `g`, pruning on coprimality. -/
def should_check_group (x g m : Nat) : Bool := sccAux g m m x

/-- `factor_trial_tree` from `trial_tree.rs`: for `x > 1`, scan the leaf
groups covering `num_primes`, and inside every flagged group test the
individual cached primes for divisibility, collecting their indices. -/
def factor_trial_tree (x : Nat) (num_primes : Nat) : Option (List Nat) :=
  if x ≤ 1 then (if x = 1 then some [] else none)
  else
    let m := max (bit_count num_primes - LIMB_BITS / 32) 0
    let entries_to_check := (num_primes + LIMB_BITS / 16 - 1) / (LIMB_BITS / 16)
    some ((List.range entries_to_check).flatMap fun i =>
      if should_check_group x i m then
        (List.range (LIMB_BITS / 16)).filterMap fun j =>
          let prime_idx := LIMB_BITS / 16 * i + j
          if prime_idx < primes3512.length ∧ prime_idx < num_primes ∧
              x % primes3512.getD prime_idx 0 = 0 then
            some prime_idx
          else none
      else [])

-- ------------------------------------------------------------------
-- The trial-division engine (`trial.rs`)
-- ------------------------------------------------------------------

/-- Modelled from the spec: `FactoredNatural` (declared in the crate's
`factored` module, not under the provided sources) is a mapping from prime
to positive exponent; it is modelled as an association list with unique
keys, and `insert` overwrites the exponent of an existing key or appends a
new binding. -/
def insertFactor (f : List (Nat × Nat)) (p e : Nat) : List (Nat × Nat) :=
  if f.any (fun q => q.1 == p) then f.map (fun q => if q.1 = p then (p, e) else q)
  else f ++ [(p, e)]

/-- Divide out every factor `d` of `n`, returning the multiplicity and the
quotient (fueled; `n` fuel suffices since each division at least halves). -/
def divOut : Nat → Nat → Nat → Nat × Nat
  | 0, n, _ => (0, n)
  | fuel + 1, n, d =>
    if 2 ≤ d ∧ n % d = 0 then
      let r := divOut fuel (n / d) d
      (r.1 + 1, r.2)
    else (0, n)

/-- Trial division scan for `factorU64`. -/
def facAux : Nat → Nat → Nat → List (Nat × Nat)
  | 0, _, _ => []
  | fuel + 1, n, d =>
    if n ≤ 1 then []
    else if n % d = 0 then
      let r := divOut n n d
      (d, r.1) :: facAux fuel r.2 (d + 1)
    else facAux fuel n (d + 1)

/-- Modelled from the external malachite collaborator: `u64::factor()`
returns the complete prime factorization of a single-limb value as
(prime, exponent) pairs in ascending order. -/
def factorU64 (n : Nat) : List (Nat × Nat) := facAux (n + 2) n 2

/-- Outcome of a `factor_trial` call: `Option::None`, a panic, or
`Some(factorization)` together with the final (mutated) value of `n`. -/
inductive TrialOutcome where
  | noneResult : TrialOutcome
  | panicked : TrialOutcome
  | ok : List (Nat × Nat) → Nat → TrialOutcome
deriving DecidableEq

/-- The body of the per-found-prime loop of `factor_trial`: divide once
unconditionally (the tree guarantees divisibility), check `p^2` and `p^3`
individually, then hand higher powers to `remove_power_ascending`. -/
def trialStep (p : Nat) (st : List (Nat × Nat) × Nat) : List (Nat × Nat) × Nat :=
  let n1 := st.2 / p
  if n1 % p = 0 then
    let n2 := n1 / p
    if n2 % p = 0 then
      let n3 := n2 / p
      let r := remove_power_ascending n3 p
      (insertFactor st.1 p (r.1 + 3), r.2)
    else (insertFactor st.1 p 2, n2)
  else (insertFactor st.1 p 1, n1)

/-- `factor_trial` from `trial.rs`.  `limb_count() == 1` is `n < 2^64` for
nonzero `n`; that fast path returns the complete factorization of the limb
via the external `factor()` and does not touch `n`.  The multi-limb path
strips powers of two, queries the product tree, and resolves each reported
prime index. -/
def factor_trial (n : Nat) (num_primes : Nat) : TrialOutcome :=
  if n = 0 then .noneResult
  else if 3512 < num_primes then .panicked
  else if n < 2 ^ 64 then
    .ok ((factorU64 n).foldl (fun f pe => insertFactor f pe.1 pe.2) []) n
  else
    let e2 := trailingZeros n
    let f0 : List (Nat × Nat) := if e2 ≠ 0 then insertFactor [] 2 e2 else []
    let n1 := n >>> e2
    if n1 = 1 then .ok f0 n1
    else
      match factor_trial_tree n1 num_primes with
      | none => .panicked
      | some found =>
        let st := found.foldl (fun st i => trialStep (primes3512.getD i 0) st) (f0, n1)
        .ok st.1 st.2

/-- Evaluation of a factorization, mirroring `Eval for FactoredZZ`:
`fold(ONE, |acc, (fac, exp)| acc * fac.pow(exp))`. -/
def prodFactors (f : List (Nat × Nat)) : Nat :=
  f.foldl (fun acc pe => acc * pe.1 ^ pe.2) 1

-- ------------------------------------------------------------------
-- Basic facts about `isqrt`
-- ------------------------------------------------------------------

theorem isqrtAux_spec (n : Nat) : ∀ fuel r, r * r ≤ n → n < (r + fuel + 1) * (r + fuel + 1) →
    (isqrtAux n fuel r) * (isqrtAux n fuel r) ≤ n ∧
      n < (isqrtAux n fuel r + 1) * (isqrtAux n fuel r + 1) := by
  intro fuel
  induction fuel with
  | zero =>
    intro r h1 h2
    refine ⟨by simpa [isqrtAux] using h1, ?_⟩
    simpa [isqrtAux] using h2
  | succ m ih =>
    intro r h1 h2
    by_cases h : (r + 1) * (r + 1) ≤ n
    · have := ih (r + 1) h (by
        have : r + 1 + m + 1 = r + (m + 1) + 1 := by ring
        simpa [this] using h2)
      simpa [isqrtAux, h] using this
    · push_neg at h
      refine ⟨by simpa [isqrtAux, Nat.not_le.2 h] using h1, ?_⟩
      simpa [isqrtAux, Nat.not_le.2 h] using h

theorem isqrt_le (n : Nat) : isqrt n * isqrt n ≤ n := by
  have h := isqrtAux_spec n n 0 (by simp) (by nlinarith)
  exact h.1

theorem lt_isqrt_succ (n : Nat) : n < (isqrt n + 1) * (isqrt n + 1) := by
  have h := isqrtAux_spec n n 0 (by simp) (by nlinarith)
  exact h.2

theorem le_isqrt_iff {k n : Nat} : k ≤ isqrt n ↔ k * k ≤ n := by
  constructor
  · intro h
    calc k * k ≤ isqrt n * isqrt n := Nat.mul_le_mul h h
    _ ≤ n := isqrt_le n
  · intro h
    by_contra hlt
    push_neg at hlt
    have : isqrt n + 1 ≤ k := hlt
    have := Nat.mul_le_mul this this
    have := lt_isqrt_succ n
    omega

theorem isqrt_lt_self {n : Nat} (h : 2 ≤ n) : isqrt n < n := by
  by_contra hle
  push_neg at hle
  have h1 : n * n ≤ isqrt n * isqrt n := Nat.mul_le_mul hle hle
  have h2 := isqrt_le n
  nlinarith

-- ------------------------------------------------------------------
-- The sequence of primes (`Nat.nth Nat.Prime`)
-- ------------------------------------------------------------------

theorem primes_infinite : {p | Nat.Prime p}.Infinite := Nat.infinite_setOf_prime

theorem nth_prime_prime (k : Nat) : Nat.Prime (Nat.nth Nat.Prime k) :=
  Nat.nth_mem_of_infinite primes_infinite k

theorem nth_prime_lt {a b : Nat} : Nat.nth Nat.Prime a < Nat.nth Nat.Prime b ↔ a < b :=
  Nat.nth_lt_nth primes_infinite

theorem nth_prime_le {a b : Nat} : Nat.nth Nat.Prime a ≤ Nat.nth Nat.Prime b ↔ a ≤ b :=
  Nat.nth_le_nth primes_infinite

theorem exists_nth_prime_eq {q : Nat} (hq : q.Prime) : ∃ k, Nat.nth Nat.Prime k = q :=
  ⟨Nat.count Nat.Prime q, Nat.nth_count hq⟩

theorem nth_prime_two_le (k : Nat) : 2 ≤ Nat.nth Nat.Prime k :=
  (nth_prime_prime k).two_le

theorem nth_prime_zero : Nat.nth Nat.Prime 0 = 2 := by
  rw [Nat.nth_zero]
  exact IsLeast.csInf_eq ⟨Nat.prime_two, fun p hp => hp.two_le⟩

/-- `Nat.nth Nat.Prime (k+1)` is the unique prime `q` above `Nat.nth Nat.Prime k`
with no prime strictly in between. -/
theorem nth_prime_succ_eq {k q : Nat} (hq : q.Prime) (hlt : Nat.nth Nat.Prime k < q)
    (hgap : ∀ r, Nat.nth Nat.Prime k < r → r < q → ¬ r.Prime) :
    Nat.nth Nat.Prime (k + 1) = q := by
  obtain ⟨j, hj⟩ := exists_nth_prime_eq hq
  rcases lt_trichotomy j (k + 1) with h | h | h
  · exfalso
    have : j ≤ k := by omega
    have : Nat.nth Nat.Prime j ≤ Nat.nth Nat.Prime k := nth_prime_le.2 this
    omega
  · rw [← h, hj]
  · exfalso
    have h1 : Nat.nth Nat.Prime k < Nat.nth Nat.Prime (k + 1) := nth_prime_lt.2 (by omega)
    have h2 : Nat.nth Nat.Prime (k + 1) < Nat.nth Nat.Prime j := nth_prime_lt.2 h
    exact hgap _ h1 (hj ▸ h2) (nth_prime_prime (k + 1))

/-- The least prime strictly above `Nat.nth Nat.Prime k` is `Nat.nth Nat.Prime (k+1)`. -/
theorem nth_prime_succ_le {k q : Nat} (hq : q.Prime) (hlt : Nat.nth Nat.Prime k < q) :
    Nat.nth Nat.Prime (k + 1) ≤ q := by
  obtain ⟨j, hj⟩ := exists_nth_prime_eq hq
  have : k < j := nth_prime_lt.1 (by omega)
  have : Nat.nth Nat.Prime (k + 1) ≤ Nat.nth Nat.Prime j := nth_prime_le.2 (by omega)
  omega

theorem nth_prime_one : Nat.nth Nat.Prime 1 = 3 := by
  refine nth_prime_succ_eq (by norm_num) (by rw [nth_prime_zero]; omega) ?_
  intro r h1 h2
  rw [nth_prime_zero] at h1
  omega

theorem nth_prime_two : Nat.nth Nat.Prime 2 = 5 := by
  refine nth_prime_succ_eq (by norm_num) (by rw [nth_prime_one]; omega) ?_
  intro r h1 h2
  rw [nth_prime_one] at h1
  interval_cases r <;> norm_num

theorem nth_prime_three : Nat.nth Nat.Prime 3 = 7 := by
  refine nth_prime_succ_eq (by norm_num) (by rw [nth_prime_two]; omega) ?_
  intro r h1 h2
  rw [nth_prime_two] at h1
  interval_cases r <;> norm_num

theorem nth_prime_four : Nat.nth Nat.Prime 4 = 11 := by
  refine nth_prime_succ_eq (by norm_num) (by rw [nth_prime_three]; omega) ?_
  intro r h1 h2
  rw [nth_prime_three] at h1
  interval_cases r <;> norm_num

theorem nth_prime_five : Nat.nth Nat.Prime 5 = 13 := by
  refine nth_prime_succ_eq (by norm_num) (by rw [nth_prime_four]; omega) ?_
  intro r h1 h2
  rw [nth_prime_four] at h1
  interval_cases r <;> norm_num

theorem nth_prime_six : Nat.nth Nat.Prime 6 = 17 := by
  refine nth_prime_succ_eq (by norm_num) (by rw [nth_prime_five]; omega) ?_
  intro r h1 h2
  rw [nth_prime_five] at h1
  interval_cases r <;> norm_num

theorem nth_prime_seven : Nat.nth Nat.Prime 7 = 19 := by
  refine nth_prime_succ_eq (by norm_num) (by rw [nth_prime_six]; omega) ?_
  intro r h1 h2
  rw [nth_prime_six] at h1
  interval_cases r <;> norm_num

theorem nth_prime_eight : Nat.nth Nat.Prime 8 = 23 := by
  refine nth_prime_succ_eq (by norm_num) (by rw [nth_prime_seven]; omega) ?_
  intro r h1 h2
  rw [nth_prime_seven] at h1
  interval_cases r <;> norm_num

theorem nth_prime_nine : Nat.nth Nat.Prime 9 = 29 := by
  refine nth_prime_succ_eq (by norm_num) (by rw [nth_prime_eight]; omega) ?_
  intro r h1 h2
  rw [nth_prime_eight] at h1
  interval_cases r <;> norm_num

theorem nth_prime_ten : Nat.nth Nat.Prime 10 = 31 := by
  refine nth_prime_succ_eq (by norm_num) (by rw [nth_prime_nine]; omega) ?_
  intro r h1 h2
  rw [nth_prime_nine] at h1
  interval_cases r <;> norm_num

/-- Bertrand's postulate, phrased for consecutive primes. -/
theorem nth_prime_succ_le_two_mul (k : Nat) :
    Nat.nth Nat.Prime (k + 1) ≤ 2 * Nat.nth Nat.Prime k := by
  obtain ⟨p, hp, hlt, hle⟩ :=
    Nat.exists_prime_lt_and_le_two_mul (Nat.nth Nat.Prime k)
      (by have := nth_prime_two_le k; omega)
  exact le_trans (nth_prime_succ_le hp hlt) hle

theorem nth_prime_le_two_pow (k : Nat) : Nat.nth Nat.Prime k ≤ 2 ^ (k + 1) := by
  induction k with
  | zero => rw [nth_prime_zero]; norm_num
  | succ m ih =>
    have h := nth_prime_succ_le_two_mul m
    calc Nat.nth Nat.Prime (m + 1) ≤ 2 * Nat.nth Nat.Prime m := h
    _ ≤ 2 * 2 ^ (m + 1) := by omega
    _ = 2 ^ (m + 2) := by ring

theorem nth_prime_odd {k : Nat} (h : 1 ≤ k) : Nat.nth Nat.Prime k % 2 = 1 := by
  have hp := nth_prime_prime k
  have hne : Nat.nth Nat.Prime k ≠ 2 := by
    have : Nat.nth Nat.Prime 0 < Nat.nth Nat.Prime k := nth_prime_lt.2 (by omega)
    rw [nth_prime_zero] at this
    omega
  rcases hp.eq_two_or_odd with h2 | hodd
  · exact absurd h2 hne
  · exact hodd

-- ------------------------------------------------------------------
-- Caches that are an initial segment of the primes
-- ------------------------------------------------------------------

/-- A cache state holding exactly the first `c.length` primes (with at least
the seed's two first entries).  Every reachable state of the process-wide
cache satisfies this. -/
def goodCache (c : List Nat) : Prop :=
  2 ≤ c.length ∧ ∀ i, i < c.length → c.getD i 0 = Nat.nth Nat.Prime i

theorem getD_append_left {l : List Nat} {a : Nat} {i : Nat} (h : i < l.length) :
    (l ++ [a]).getD i 0 = l.getD i 0 := by
  simp [List.getD_eq_getElem?_getD, List.getElem?_append_left h]

theorem getD_append_self {l : List Nat} {a : Nat} :
    (l ++ [a]).getD l.length 0 = a := by
  simp [List.getD_eq_getElem?_getD]

theorem getD_mem {l : List Nat} {i : Nat} (h : i < l.length) : l.getD i 0 ∈ l := by
  rw [List.getD_eq_getElem?_getD, List.getElem?_eq_getElem h]
  exact List.getElem_mem h

theorem mem_getD {l : List Nat} {x : Nat} (h : x ∈ l) :
    ∃ i, i < l.length ∧ l.getD i 0 = x := by
  obtain ⟨i, hi, hx⟩ := List.getElem_of_mem h
  exact ⟨i, hi, by rw [List.getD_eq_getElem?_getD, List.getElem?_eq_getElem hi]; simpa⟩

theorem getLastD_eq_getD {l : List Nat} (h : l ≠ []) :
    l.getLastD 0 = l.getD (l.length - 1) 0 := by
  have hlen : 0 < l.length := List.length_pos.2 h
  rw [List.getLastD_eq_getLast?, List.getLast?_eq_getElem?, List.getD_eq_getElem?_getD]

theorem goodCache_ne_nil {c : List Nat} (hc : goodCache c) : c ≠ [] := by
  intro h
  have := hc.1
  simp [h] at this

theorem goodCache_last {c : List Nat} (hc : goodCache c) :
    c.getLastD 0 = Nat.nth Nat.Prime (c.length - 1) := by
  rw [getLastD_eq_getD (goodCache_ne_nil hc)]
  exact hc.2 _ (by have := hc.1; omega)

/-- Members of a good cache are exactly indexed primes. -/
theorem goodCache_mem {c : List Nat} (hc : goodCache c) {x : Nat} (h : x ∈ c) :
    ∃ i, i < c.length ∧ Nat.nth Nat.Prime i = x := by
  obtain ⟨i, hi, hx⟩ := mem_getD h
  exact ⟨i, hi, by rw [← hc.2 i hi, hx]⟩

theorem goodCache_prime_mem {c : List Nat} (hc : goodCache c) {q : Nat} (hq : q.Prime)
    (hle : q ≤ c.getLastD 0) : q ∈ c := by
  obtain ⟨k, hk⟩ := exists_nth_prime_eq hq
  rw [goodCache_last hc] at hle
  have hkle : k ≤ c.length - 1 := nth_prime_le.1 (by omega)
  have hklt : k < c.length := by have := hc.1; omega
  have := hc.2 k hklt
  rw [← hk, ← this]
  exact getD_mem hklt

-- ------------------------------------------------------------------
-- Correctness of `is_prime_using_cache` on good caches
-- ------------------------------------------------------------------

theorem mod_eq_zero_of_dvd {a b : Nat} (h : a ∣ b) : b % a = 0 := by
  obtain ⟨c, rfl⟩ := h
  simp [Nat.mul_mod_right]

theorem trialLoop_false {n s q : Nat} (hqs : q ≤ s) (hdvd : q ∣ n) :
    ∀ c : List Nat, q ∈ c → List.Pairwise (· ≤ ·) c → trialLoop n s c = false := by
  intro c
  induction c with
  | nil => intro h; simp at h
  | cons p ps ih =>
    intro hmem hpair
    rcases List.mem_cons.1 hmem with rfl | hmem2
    · have hns : ¬ s < q := by omega
      have hmod : n % q = 0 := mod_eq_zero_of_dvd hdvd
      simp [trialLoop, hns, hmod]
    · have hple : p ≤ q := (List.pairwise_cons.1 hpair).1 q hmem2
      have hns : ¬ s < p := by omega
      by_cases hmod : n % p = 0
      · simp [trialLoop, hns, hmod]
      · simp only [trialLoop, if_neg hns]
        rw [if_neg hmod]
        exact ih hmem2 (List.pairwise_cons.1 hpair).2

theorem trialLoop_true {n s : Nat} :
    ∀ c : List Nat, (∀ p ∈ c, p ≤ s → ¬ p ∣ n) → trialLoop n s c = true := by
  intro c
  induction c with
  | nil => intro _; rfl
  | cons p ps ih =>
    intro h
    by_cases hs : s < p
    · simp [trialLoop, hs]
    · push_neg at hs
      have hmod : ¬ n % p = 0 := fun hmod =>
        h p (List.mem_cons_self p ps) hs (Nat.dvd_of_mod_eq_zero hmod)
      have hstep : trialLoop n s (p :: ps) = trialLoop n s ps := by
        simp only [trialLoop]
        rw [if_neg (Nat.not_lt.2 hs), if_neg hmod]
      rw [hstep]
      exact ih fun r hr hrs => h r (List.mem_cons.2 (Or.inr hr)) hrs

theorem getD_eq_getElem {l : List Nat} {i : Nat} (h : i < l.length) :
    l.getD i 0 = l[i] := by
  rw [List.getD_eq_getElem?_getD, List.getElem?_eq_getElem h]
  rfl

theorem goodCache_sorted {c : List Nat} (hc : goodCache c) : List.Pairwise (· ≤ ·) c := by
  rw [List.pairwise_iff_getElem]
  intro i j hi hj hij
  rw [← getD_eq_getElem hi, ← getD_eq_getElem hj, hc.2 i hi, hc.2 j hj]
  exact nth_prime_le.2 (by omega)

/-- On a cache holding an initial segment of the primes, the trial-division
predicate decides primality of every odd candidate up to the square of the
last cached prime. -/
theorem is_prime_good {c : List Nat} (hc : goodCache c) {n : Nat} (hodd : n % 2 = 1)
    (h3 : 3 ≤ n) (hbound : n ≤ c.getLastD 0 * c.getLastD 0) :
    (is_prime_using_cache n c = true ↔ n.Prime) := by
  have hn2 : ¬ n < 2 := by omega
  have hne : ¬ n % 2 = 0 := by omega
  have hunfold : is_prime_using_cache n c = trialLoop n (isqrt n) c := by
    simp [is_prime_using_cache, hn2, hodd]
  rw [hunfold]
  constructor
  · intro htrue
    by_contra hnp
    set q := n.minFac with hqdef
    have hq : q.Prime := Nat.minFac_prime (by omega)
    have hqd : q ∣ n := Nat.minFac_dvd n
    have hsq : q * q ≤ n := by
      have := Nat.minFac_sq_le_self (by omega : 0 < n) hnp
      nlinarith [this]
    have hq_isqrt : q ≤ isqrt n := le_isqrt_iff.2 hsq
    have hqlast : q ≤ c.getLastD 0 := by
      by_contra hgt
      push_neg at hgt
      have : (c.getLastD 0 + 1) * (c.getLastD 0 + 1) ≤ q * q := by
        apply Nat.mul_le_mul <;> omega
      nlinarith
    have hqmem : q ∈ c := goodCache_prime_mem hc hq hqlast
    have := trialLoop_false hq_isqrt hqd c hqmem (goodCache_sorted hc)
    rw [htrue] at this
    simp at this
  · intro hp
    apply trialLoop_true
    intro p hp_mem hps hdvd
    obtain ⟨i, hi, hip⟩ := goodCache_mem hc hp_mem
    have hpp : p.Prime := hip ▸ nth_prime_prime i
    have : p = n := (Nat.prime_dvd_prime_iff_eq hpp hp).1 hdvd
    subst this
    have := isqrt_lt_self (show 2 ≤ p by omega)
    omega

-- ------------------------------------------------------------------
-- The extension loop only appends, and on good caches computes
-- exactly the next primes
-- ------------------------------------------------------------------

theorem extendLoop_isPrefixOf : ∀ (fuel target : Nat) (c : List Nat) (cand : Nat),
    c <+: extendLoop fuel target c cand := by
  intro fuel
  induction fuel with
  | zero => intro target c cand; exact List.prefix_refl c
  | succ m ih =>
    intro target c cand
    by_cases hlen : c.length < target
    · simp only [extendLoop, if_pos hlen]
      by_cases hp : is_prime_using_cache cand c
      · rw [if_pos hp]
        exact List.IsPrefix.trans ⟨[cand], rfl⟩ (ih target (c ++ [cand]) (cand + 2))
      · rw [if_neg hp]
        exact ih target c (cand + 2)
    · simp only [extendLoop, if_neg hlen]
      exact List.prefix_refl c

theorem goodCache_append {c : List Nat} (hc : goodCache c) {q : Nat}
    (hq : q = Nat.nth Nat.Prime c.length) : goodCache (c ++ [q]) := by
  constructor
  · have := hc.1
    simp only [List.length_append, List.length_cons, List.length_nil]
    omega
  · intro i hi
    simp only [List.length_append, List.length_cons, List.length_nil] at hi
    rcases Nat.lt_or_ge i c.length with h | h
    · rw [getD_append_left h]
      exact hc.2 i h
    · have : i = c.length := by omega
      subst this
      rw [getD_append_self, hq]

theorem extendLoop_spec : ∀ (fuel target : Nat) (c : List Nat) (cand : Nat),
    goodCache c →
    cand % 2 = 1 →
    Nat.nth Nat.Prime (c.length - 1) < cand →
    (∀ q, q.Prime → Nat.nth Nat.Prime (c.length - 1) < q → cand ≤ q) →
    Nat.nth Nat.Prime (target - 1) + 2 ≤ fuel + cand →
    goodCache (extendLoop fuel target c cand) ∧
      (extendLoop fuel target c cand).length = max c.length target := by
  intro fuel
  induction fuel with
  | zero =>
    intro target c cand hc hodd hgt hmin hfuel
    by_cases hlen : c.length < target
    · exfalso
      have h1 : cand ≤ Nat.nth Nat.Prime c.length :=
        hmin _ (nth_prime_prime _) (nth_prime_lt.2 (by have := hc.1; omega))
      have h2 : Nat.nth Nat.Prime c.length ≤ Nat.nth Nat.Prime (target - 1) :=
        nth_prime_le.2 (by omega)
      omega
    · refine ⟨hc, ?_⟩
      show c.length = max c.length target
      omega
  | succ m ih =>
    intro target c cand hc hodd hgt hmin hfuel
    by_cases hlen : c.length < target
    case neg =>
      have hstep : extendLoop (m + 1) target c cand = c := by
        simp [extendLoop, hlen]
      rw [hstep]
      exact ⟨hc, by omega⟩
    case pos =>
      have hL2 : 2 ≤ c.length := hc.1
      have hlast3 : 3 ≤ Nat.nth Nat.Prime (c.length - 1) := by
        have h1 : Nat.nth Nat.Prime 1 ≤ Nat.nth Nat.Prime (c.length - 1) :=
          nth_prime_le.2 (by omega)
        rw [nth_prime_one] at h1
        omega
      have hLsucc : c.length - 1 + 1 = c.length := by omega
      have hcand_le : cand ≤ Nat.nth Nat.Prime c.length :=
        hmin _ (nth_prime_prime _) (nth_prime_lt.2 (by omega))
      have hbert : Nat.nth Nat.Prime c.length ≤ 2 * Nat.nth Nat.Prime (c.length - 1) := by
        have := nth_prime_succ_le_two_mul (c.length - 1)
        rwa [hLsucc] at this
      have hcand_bound :
          cand ≤ Nat.nth Nat.Prime (c.length - 1) * Nat.nth Nat.Prime (c.length - 1) := by
        nlinarith
      have h3c : 3 ≤ cand := by omega
      have hip := is_prime_good hc hodd h3c (by rw [goodCache_last hc]; exact hcand_bound)
      by_cases hpr : Nat.Prime cand
      · have htrue : is_prime_using_cache cand c = true := hip.2 hpr
        have hcand_ge : Nat.nth Nat.Prime c.length ≤ cand := by
          have := nth_prime_succ_le hpr hgt
          rwa [hLsucc] at this
        have hcand_eq : cand = Nat.nth Nat.Prime c.length := by omega
        have hc2 : goodCache (c ++ [cand]) := goodCache_append hc hcand_eq
        have hlen2 : (c ++ [cand]).length = c.length + 1 := by simp
        have hgt2 : Nat.nth Nat.Prime ((c ++ [cand]).length - 1) < cand + 2 := by
          rw [hlen2]
          simp only [Nat.add_sub_cancel]
          omega
        have hmin2 : ∀ q, q.Prime →
            Nat.nth Nat.Prime ((c ++ [cand]).length - 1) < q → cand + 2 ≤ q := by
          intro q hq hgtq
          rw [hlen2] at hgtq
          simp only [Nat.add_sub_cancel] at hgtq
          rw [← hcand_eq] at hgtq
          have hqodd : q % 2 = 1 := by
            rcases hq.eq_two_or_odd with h2 | h1
            · omega
            · exact h1
          omega
        have hfuel2 : Nat.nth Nat.Prime (target - 1) + 2 ≤ m + (cand + 2) := by omega
        have hres := ih target (c ++ [cand]) (cand + 2) hc2 (by omega) hgt2 hmin2 hfuel2
        have hstep : extendLoop (m + 1) target c cand =
            extendLoop m target (c ++ [cand]) (cand + 2) := by
          simp [extendLoop, hlen, htrue]
        rw [hstep]
        refine ⟨hres.1, ?_⟩
        rw [hres.2, hlen2]
        omega
      · have hfalse : is_prime_using_cache cand c = false := by
          cases h : is_prime_using_cache cand c
          · rfl
          · exact absurd (hip.1 h) hpr
        have hmin2 : ∀ q, q.Prime → Nat.nth Nat.Prime (c.length - 1) < q → cand + 2 ≤ q := by
          intro q hq hgtq
          have hge : cand ≤ q := hmin q hq hgtq
          have hne : q ≠ cand := fun h => hpr (h ▸ hq)
          have hqodd : q % 2 = 1 := by
            rcases hq.eq_two_or_odd with h2 | h1
            · omega
            · exact h1
          omega
        have hres := ih target c (cand + 2) hc (by omega) (by omega) hmin2 (by omega)
        have hstep : extendLoop (m + 1) target c cand =
            extendLoop m target c (cand + 2) := by
          simp [extendLoop, hlen, hfalse]
        rw [hstep]
        exact hres

theorem extend_cache_to_spec {c : List Nat} (hc : goodCache c) (t : Nat) :
    goodCache (extend_cache_to c t) ∧ (extend_cache_to c t).length = max c.length t := by
  have hL2 : 2 ≤ c.length := hc.1
  have hlast : c.getLastD 0 = Nat.nth Nat.Prime (c.length - 1) := goodCache_last hc
  have hlast3 : 3 ≤ Nat.nth Nat.Prime (c.length - 1) := by
    have h1 : Nat.nth Nat.Prime 1 ≤ Nat.nth Nat.Prime (c.length - 1) :=
      nth_prime_le.2 (by omega)
    rw [nth_prime_one] at h1
    omega
  have hlastodd : Nat.nth Nat.Prime (c.length - 1) % 2 = 1 := nth_prime_odd (by omega)
  have hmin : ∀ q, q.Prime → Nat.nth Nat.Prime (c.length - 1) < q →
      c.getLastD 0 + 2 ≤ q := by
    intro q hq hgtq
    have hqodd : q % 2 = 1 := by
      rcases hq.eq_two_or_odd with h2 | h1
      · omega
      · exact h1
    omega
  have hfuel : Nat.nth Nat.Prime (t - 1) + 2 ≤ 2 ^ (t + 1) + (c.getLastD 0 + 2) := by
    have h1 : Nat.nth Nat.Prime (t - 1) ≤ 2 ^ (t - 1 + 1) := nth_prime_le_two_pow (t - 1)
    have h2 : (2 : Nat) ^ (t - 1 + 1) ≤ 2 ^ (t + 1) :=
      Nat.pow_le_pow_right (by omega) (by omega)
    omega
  exact extendLoop_spec (2 ^ (t + 1)) t c (c.getLastD 0 + 2) hc (by omega)
    (by omega) hmin hfuel

theorem ensure_primes_computed_spec {c : List Nat} (hc : goodCache c) (k : Nat) :
    goodCache (ensure_primes_computed k c) ∧
      (ensure_primes_computed k c).length = max c.length k := by
  unfold ensure_primes_computed
  by_cases h : k ≤ c.length
  · rw [if_pos h]
    exact ⟨hc, by omega⟩
  · rw [if_neg h]
    exact extend_cache_to_spec hc k

theorem initCache_good : goodCache initCache := by
  constructor
  · simp [initCache]
  · intro i hi
    simp only [initCache, List.length_cons, List.length_nil] at hi
    interval_cases i <;>
      simp [initCache, nth_prime_zero, nth_prime_one, nth_prime_two, nth_prime_three,
        nth_prime_four, nth_prime_five, nth_prime_six, nth_prime_seven, nth_prime_eight,
        nth_prime_nine]

theorem primes3512_good : goodCache primes3512 :=
  (ensure_primes_computed_spec initCache_good 3512).1

theorem primes3512_length : primes3512.length = 3512 := by
  have := (ensure_primes_computed_spec initCache_good 3512).2
  simpa [primes3512, initCache] using this

theorem primes3512_getD {i : Nat} (h : i < 3512) :
    primes3512.getD i 0 = Nat.nth Nat.Prime i :=
  primes3512_good.2 i (by rw [primes3512_length]; exact h)

-- ------------------------------------------------------------------
-- Monotonicity of the cache under its two mutating operations
-- ------------------------------------------------------------------

theorem getD_of_isPrefixOf {c d : List Nat} (h : c <+: d) {i : Nat} (hi : i < c.length) :
    d.getD i 0 = c.getD i 0 := by
  obtain ⟨t, rfl⟩ := h
  rw [List.getD_eq_getElem?_getD, List.getD_eq_getElem?_getD, List.getElem?_append_left hi]

theorem applyOp_isPrefixOf (c : List Nat) (op : CacheOp) : c <+: applyOp c op := by
  cases op with
  | ensure k =>
    show c <+: ensure_primes_computed k c
    unfold ensure_primes_computed
    by_cases h : k ≤ c.length
    · rw [if_pos h]
    · rw [if_neg h]
      exact extendLoop_isPrefixOf _ _ _ _
  | extend t =>
    show c <+: extend_cache_to c t
    exact extendLoop_isPrefixOf _ _ _ _

theorem applyOps_isPrefixOf (ops : List CacheOp) : ∀ c : List Nat, c <+: applyOps c ops := by
  induction ops with
  | nil => intro c; exact List.prefix_refl c
  | cons op rest ih =>
    intro c
    exact List.IsPrefix.trans (applyOp_isPrefixOf c op) (ih (applyOp c op))

theorem applyOp_good {c : List Nat} (hc : goodCache c) (op : CacheOp) :
    goodCache (applyOp c op) := by
  cases op with
  | ensure k => exact (ensure_primes_computed_spec hc k).1
  | extend t => exact (extend_cache_to_spec hc t).1

theorem applyOps_good (ops : List CacheOp) :
    ∀ c : List Nat, goodCache c → goodCache (applyOps c ops) := by
  induction ops with
  | nil => intro c hc; exact hc
  | cons op rest ih => intro c hc; exact ih (applyOp c op) (applyOp_good hc op)

-- ------------------------------------------------------------------
-- Power extraction: correctness of the binary-lifting loops
-- ------------------------------------------------------------------

theorem factorization_div_pow {p n k : Nat} (hp : p.Prime) (hn : 0 < n) (h : p ^ k ∣ n) :
    0 < n / p ^ k ∧ (n / p ^ k).factorization p = n.factorization p - k := by
  obtain ⟨m, hm⟩ := h
  have hpk : 0 < p ^ k := Nat.pos_pow_of_pos k hp.pos
  have hm0 : 0 < m := by
    rcases Nat.eq_zero_or_pos m with h0 | h0
    · subst h0; simp at hm; omega
    · exact h0
  have hdiv : n / p ^ k = m := by
    rw [hm]
    exact Nat.mul_div_cancel_left m hpk
  refine ⟨by rw [hdiv]; exact hm0, ?_⟩
  have hfac : (p ^ k * m).factorization p = k + m.factorization p := by
    rw [Nat.factorization_mul (by positivity) (by omega)]
    simp [hp.factorization_pow]
  rw [hdiv, hm, hfac]
  omega

theorem factorization_lt_of_lt_pow {p n K : Nat} (hp : p.Prime) (hn : 0 < n)
    (h : n < p ^ K) : n.factorization p < K := by
  have hd : p ^ n.factorization p ∣ n := Nat.ord_proj_dvd n p
  have h1 : p ^ n.factorization p ≤ n := Nat.le_of_dvd hn hd
  exact (Nat.pow_lt_pow_iff_right hp.one_lt).1 (lt_of_le_of_lt h1 h)

theorem pow_dvd_iff_le_factorization {p n k : Nat} (hp : p.Prime) (hn : 0 < n) :
    p ^ k ∣ n ↔ k ≤ n.factorization p :=
  hp.pow_dvd_iff_le_factorization (by omega)

theorem descendLoop_spec {p : Nat} (hp : p.Prime) :
    ∀ (i : Nat) (sq : List Nat) (n exp : Nat), 0 < n →
      (∀ j, j ≤ i → sq.getD j 0 = p ^ 2 ^ j) →
      n.factorization p < 2 ^ (i + 1) →
      descendLoop sq i n exp =
        (exp + n.factorization p, n / p ^ n.factorization p) := by
  intro i
  induction i with
  | zero =>
    intro sq n exp hn hsq hv
    have hs : sq.getD 0 0 = p := by
      have := hsq 0 le_rfl
      simpa using this
    rcases Nat.lt_or_ge (n.factorization p) 1 with hv0 | hv1
    · have hv0 : n.factorization p = 0 := by omega
      have hnd : ¬ p ∣ n := by
        intro hdvd
        have : 1 ≤ n.factorization p := by
          rw [← pow_dvd_iff_le_factorization hp hn]
          simpa using hdvd
        omega
      have hcond : ¬ (p ≤ n ∧ n % p = 0) := by
        rintro ⟨-, hmod⟩
        exact hnd (Nat.dvd_of_mod_eq_zero hmod)
      simp only [descendLoop, hs]
      rw [if_neg hcond]
      simp [hv0]
    · have hv1 : n.factorization p = 1 := by omega
      have hdvd : p ∣ n := by
        have : p ^ 1 ∣ n := (pow_dvd_iff_le_factorization hp hn).2 (by omega)
        simpa using this
      have hle : p ≤ n := Nat.le_of_dvd hn hdvd
      have hmod : n % p = 0 := mod_eq_zero_of_dvd hdvd
      simp only [descendLoop, hs]
      rw [if_pos ⟨hle, hmod⟩]
      rw [hv1]
      simp
  | succ i ih =>
    intro sq n exp hn hsq hv
    have hs : sq.getD (i + 1) 0 = p ^ 2 ^ (i + 1) := hsq (i + 1) le_rfl
    have hsq' : ∀ j, j ≤ i → sq.getD j 0 = p ^ 2 ^ j := fun j hj => hsq j (by omega)
    by_cases hdvd : p ^ 2 ^ (i + 1) ∣ n
    · have hvge : 2 ^ (i + 1) ≤ n.factorization p :=
        (pow_dvd_iff_le_factorization hp hn).1 hdvd
      have hle : p ^ 2 ^ (i + 1) ≤ n := Nat.le_of_dvd hn hdvd
      have hmod : n % p ^ 2 ^ (i + 1) = 0 := mod_eq_zero_of_dvd hdvd
      have hstep : descendLoop sq (i + 1) n exp =
          descendLoop sq i (n / p ^ 2 ^ (i + 1)) (exp + 2 ^ (i + 1)) := by
        simp only [descendLoop, hs]
        rw [if_pos ⟨hle, hmod⟩]
      obtain ⟨hpos2, hfac2⟩ := factorization_div_pow hp hn hdvd
      have hv2 : (n / p ^ 2 ^ (i + 1)).factorization p < 2 ^ (i + 1) := by
        rw [hfac2]
        have : (2 : Nat) ^ (i + 1 + 1) = 2 ^ (i + 1) + 2 ^ (i + 1) := by ring
        omega
      rw [hstep, ih sq _ _ hpos2 hsq' hv2, hfac2]
      have h1 : exp + 2 ^ (i + 1) + (n.factorization p - 2 ^ (i + 1)) =
          exp + n.factorization p := by omega
      have h2 : n / p ^ 2 ^ (i + 1) / p ^ (n.factorization p - 2 ^ (i + 1)) =
          n / p ^ n.factorization p := by
        rw [Nat.div_div_eq_div_mul, ← pow_add]
        congr 2
        omega
      rw [h1, h2]
    · have hvlt : n.factorization p < 2 ^ (i + 1) := by
        by_contra hge
        push_neg at hge
        exact hdvd ((pow_dvd_iff_le_factorization hp hn).2 hge)
      have hcond : ¬ (p ^ 2 ^ (i + 1) ≤ n ∧ n % p ^ 2 ^ (i + 1) = 0) := by
        rintro ⟨-, hmod⟩
        exact hdvd (Nat.dvd_of_mod_eq_zero hmod)
      have hstep : descendLoop sq (i + 1) n exp = descendLoop sq i n exp := by
        simp only [descendLoop, hs]
        rw [if_neg hcond]
      rw [hstep]
      exact ih sq n exp hn hsq' hvlt

theorem ascendLoop_spec {p : Nat} (hp : p.Prime) :
    ∀ (fuel n : Nat) (sq : List Nat) (i exp : Nat), 0 < n → n < fuel →
      sq.length = i + 1 →
      (∀ j, j ≤ i → sq.getD j 0 = p ^ 2 ^ j) →
      ∃ d n2 sq2 i2,
        ascendLoop fuel n sq i exp = (n2, sq2, i2, exp + d) ∧
        p ^ d ∣ n ∧ n2 = n / p ^ d ∧ 0 < n2 ∧
        (∀ j, j ≤ i2 → sq2.getD j 0 = p ^ 2 ^ j) ∧
        n2.factorization p < 2 ^ (i2 + 1) := by
  intro fuel
  induction fuel with
  | zero => intro n sq i exp hn hfuel; omega
  | succ m ih =>
    intro n sq i exp hn hfuel hlen hsq
    have hs : sq.getD i 0 = p ^ 2 ^ i := hsq i le_rfl
    have hppos : 2 ≤ p := hp.two_le
    have hspos : 2 ≤ p ^ 2 ^ i := by
      calc (2 : Nat) = 2 ^ 1 := by norm_num
      _ ≤ p ^ 1 := by simpa using hppos
      _ ≤ p ^ 2 ^ i := Nat.pow_le_pow_right (by omega) (Nat.one_le_two_pow)
    by_cases hdvd : p ^ 2 ^ i ∣ n
    · have hmod : n % p ^ 2 ^ i = 0 := mod_eq_zero_of_dvd hdvd
      have hn2pos : 0 < n / p ^ 2 ^ i := (factorization_div_pow hp hn hdvd).1
      have hn2lt : n / p ^ 2 ^ i < n := Nat.div_lt_self hn (by omega)
      by_cases hbrk : n / p ^ 2 ^ i < p ^ 2 ^ i * p ^ 2 ^ i
      · -- `next_square > n`: stop ascending at the current level
        refine ⟨2 ^ i, n / p ^ 2 ^ i, sq, i, ?_, hdvd, rfl, hn2pos, hsq, ?_⟩
        · simp only [ascendLoop, hs]
          rw [if_pos hmod, if_pos hbrk]
        · have : p ^ 2 ^ i * p ^ 2 ^ i = p ^ 2 ^ (i + 1) := by
            rw [← pow_add]
            congr 1
            ring
          exact factorization_lt_of_lt_pow hp hn2pos (this ▸ hbrk)
      · -- keep ascending with the squared entry appended
        push_neg at hbrk
        have hlen2 : (sq ++ [p ^ 2 ^ i * p ^ 2 ^ i]).length = (i + 1) + 1 := by
          simp [hlen]
        have hsq2 : ∀ j, j ≤ i + 1 →
            (sq ++ [p ^ 2 ^ i * p ^ 2 ^ i]).getD j 0 = p ^ 2 ^ j := by
          intro j hj
          rcases Nat.lt_or_ge j (i + 1) with hjlt | hjge
          · rw [show (sq ++ [p ^ 2 ^ i * p ^ 2 ^ i]).getD j 0 = sq.getD j 0 from
              getD_append_left (by omega)]
            exact hsq j (by omega)
          · have hj1 : j = i + 1 := by omega
            subst hj1
            have hga := getD_append_self (l := sq) (a := p ^ 2 ^ i * p ^ 2 ^ i)
            rw [hlen] at hga
            rw [hga]
            have hexp : (2 : Nat) ^ (i + 1) = 2 ^ i + 2 ^ i := by
              rw [pow_succ]
              omega
            rw [hexp, pow_add]
        have hrec := ih (n / p ^ 2 ^ i) (sq ++ [p ^ 2 ^ i * p ^ 2 ^ i]) (i + 1)
          (exp + 2 ^ i) hn2pos (by omega) hlen2 hsq2
        obtain ⟨d, n2, sq2, i2, heq, hdvd2, hn2eq, hn2pos2, hsq3, hv2⟩ := hrec
        refine ⟨2 ^ i + d, n2, sq2, i2, ?_, ?_, ?_, hn2pos2, hsq3, hv2⟩
        · simp only [ascendLoop, hs]
          rw [if_pos hmod, if_neg (Nat.not_lt.2 hbrk)]
          rw [heq]
          have harith : exp + 2 ^ i + d = exp + (2 ^ i + d) := by omega
          rw [harith]
        · obtain ⟨m1, hm1⟩ := hdvd
          obtain ⟨m2, hm2⟩ := hdvd2
          have hq : n / p ^ 2 ^ i = m1 := by
            rw [hm1]
            exact Nat.mul_div_cancel_left m1 (by positivity)
          rw [pow_add, hm1]
          rw [hq] at hm2
          rw [hm2]
          ring_nf
          exact Dvd.intro m2 (by ring)
        · rw [hn2eq, Nat.div_div_eq_div_mul, ← pow_add]
    · -- division fails: exit with `i.saturating_sub 1`
      have hmod : ¬ n % p ^ 2 ^ i = 0 := fun h => hdvd (Nat.dvd_of_mod_eq_zero h)
      have hvlt : n.factorization p < 2 ^ i := by
        by_contra hge
        push_neg at hge
        exact hdvd ((pow_dvd_iff_le_factorization hp hn).2 hge)
      refine ⟨0, n, sq, i - 1, ?_, by simp, by simp, hn, ?_, ?_⟩
      · simp only [ascendLoop, hs]
        rw [if_neg hmod]
        simp
      · intro j hj
        exact hsq j (by omega)
      · have : (2 : Nat) ^ i ≤ 2 ^ (i - 1 + 1) := Nat.pow_le_pow_right (by omega) (by omega)
        omega

theorem remove_power_ascending_spec {p n : Nat} (hp : p.Prime) (hn : 0 < n) :
    remove_power_ascending n p = (n.factorization p, n / p ^ n.factorization p) := by
  obtain ⟨d, n2, sq2, i2, heq, hdvd, hn2eq, hn2pos, hsq2, hv2⟩ :=
    ascendLoop_spec hp (n + 1) n [p] 0 0 hn (by omega) (by simp)
      (by
        intro j hj
        have hj0 : j = 0 := by omega
        subst hj0
        simp)
  have hstep : remove_power_ascending n p = descendLoop sq2 i2 n2 (0 + d) := by
    unfold remove_power_ascending
    rw [heq]
  rw [hstep, descendLoop_spec hp i2 sq2 n2 (0 + d) hn2pos hsq2 hv2]
  obtain ⟨-, hfac⟩ := factorization_div_pow hp hn hdvd
  have hdle : d ≤ n.factorization p := (pow_dvd_iff_le_factorization hp hn).1 hdvd
  rw [hn2eq, hfac]
  have h1 : 0 + d + (n.factorization p - d) = n.factorization p := by omega
  have h2 : n / p ^ d / p ^ (n.factorization p - d) = n / p ^ n.factorization p := by
    rw [Nat.div_div_eq_div_mul, ← pow_add]
    congr 2
    omega
  rw [h1, h2]

theorem tzAux_spec : ∀ fuel n, 0 < n → n ≤ fuel → tzAux fuel n = n.factorization 2 := by
  intro fuel
  induction fuel with
  | zero => intro n hn hle; omega
  | succ m ih =>
    intro n hn hle
    by_cases he : n % 2 = 0
    · simp only [tzAux, if_pos (⟨he, by omega⟩ : n % 2 = 0 ∧ n ≠ 0)]
      have hdvd : (2 : Nat) ^ 1 ∣ n := by simpa using Nat.dvd_of_mod_eq_zero he
      obtain ⟨hpos, hfac⟩ := factorization_div_pow Nat.prime_two hn hdvd
      rw [pow_one] at hpos hfac
      have hn2 : 2 ≤ n := by omega
      have hrec := ih (n / 2) hpos (by omega)
      rw [hrec, hfac]
      have hv1 : 1 ≤ n.factorization 2 := by
        have := (pow_dvd_iff_le_factorization Nat.prime_two hn).1 hdvd
        omega
      omega
    · have hcond : ¬ (n % 2 = 0 ∧ n ≠ 0) := by
        intro h
        exact he h.1
      simp only [tzAux, if_neg hcond]
      have hnd : ¬ (2 : Nat) ∣ n := fun h => he (mod_eq_zero_of_dvd h)
      rw [Nat.factorization_eq_zero_of_not_dvd hnd]

theorem trailingZeros_spec {n : Nat} (hn : 0 < n) : trailingZeros n = n.factorization 2 :=
  tzAux_spec n n hn le_rfl

theorem remove_power_spec {p n : Nat} (hp : p.Prime) (hn : 0 < n) :
    remove_power n p = some (n.factorization p, n / p ^ n.factorization p) := by
  unfold remove_power
  rw [if_neg (by omega : ¬ n = 0)]
  by_cases hlt : n < p
  · rw [if_pos hlt]
    have hnd : ¬ p ∣ n := fun h => absurd (Nat.le_of_dvd hn h) (by omega)
    rw [Nat.factorization_eq_zero_of_not_dvd hnd]
    simp
  · rw [if_neg hlt]
    by_cases hp2 : p = 2
    · rw [if_pos hp2]
      subst hp2
      simp only [trailingZeros_spec hn, Nat.shiftRight_eq_div_pow]
    · rw [if_neg hp2]
      by_cases hmod : n % p = 0
      · rw [if_pos hmod]
        have hdvd : p ^ 1 ∣ n := by simpa using Nat.dvd_of_mod_eq_zero hmod
        obtain ⟨hpos, hfac⟩ := factorization_div_pow hp hn hdvd
        rw [pow_one] at hpos hfac
        have hv1 : 1 ≤ n.factorization p := by
          have := (pow_dvd_iff_le_factorization hp hn).1 hdvd
          omega
        have h1 : 1 + (n.factorization p - 1) = n.factorization p := by omega
        have h2 : n / p / p ^ (n.factorization p - 1) = n / p ^ n.factorization p := by
          rw [show n / p = n / p ^ 1 from by rw [pow_one], Nat.div_div_eq_div_mul, ← pow_add, h1]
        simp only [remove_power_ascending_spec hp hpos, hfac, h1, h2]
      · rw [if_neg hmod]
        have hnd : ¬ p ∣ n := fun h => hmod (mod_eq_zero_of_dvd h)
        rw [Nat.factorization_eq_zero_of_not_dvd hnd]
        simp

-- ------------------------------------------------------------------
-- The product tree: shape and node values
-- ------------------------------------------------------------------

theorem layerCounts_eq (l : Nat) : layerCounts l = 877 / 2 ^ l + 1 := by
  induction l with
  | zero => simp [layerCounts]
  | succ m ih =>
    show (layerCounts m + 1) / 2 = 877 / 2 ^ (m + 1) + 1
    rw [ih]
    rw [show 877 / 2 ^ m + 1 + 1 = 877 / 2 ^ m + 2 from rfl]
    rw [Nat.add_div_right _ (by omega)]
    rw [Nat.div_div_eq_div_mul, ← pow_succ]

theorem layerCounts_le (l : Nat) : layerCounts l ≤ 878 := by
  rw [layerCounts_eq]
  have : 877 / 2 ^ l ≤ 877 := Nat.div_le_self _ _
  omega

theorem layerCounts_pos (l : Nat) : 1 ≤ layerCounts l := by
  rw [layerCounts_eq]
  exact Nat.le_add_left 1 _

theorem getD_range_map {f : Nat → Nat} {n j : Nat} (h : j < n) :
    ((List.range n).map f).getD j 0 = f j := by
  rw [List.getD_eq_getElem?_getD, List.getElem?_map, List.getElem?_range h]
  rfl

theorem primes3512_getD' {i : Nat} (h : i < 3512) :
    primes3512.getD i 0 = Nat.nth Nat.Prime i :=
  primes3512_good.2 i (by rw [primes3512_length]; exact h)

theorem treeLevel0_getD {j : Nat} (hj : j < 878) :
    treeLevel0.getD j 0 =
      ∏ i ∈ Finset.Ico (4 * j) (4 * j + 4), Nat.nth Nat.Prime i := by
  have h1024 : j < FACTOR_TREE_ENTRIES_PER_LEVEL := by
    show j < 4096 / (64 / 16)
    omega
  unfold treeLevel0
  rw [getD_range_map h1024, if_pos (by omega : 4 * j < 3512)]
  rw [primes3512_getD' (by omega), primes3512_getD' (by omega),
    primes3512_getD' (by omega), primes3512_getD' (by omega)]
  rw [show 4 * j + 4 = 4 * j + 3 + 1 from rfl, Finset.prod_Ico_succ_top (by omega)]
  rw [show 4 * j + 3 = 4 * j + 2 + 1 from rfl, Finset.prod_Ico_succ_top (by omega)]
  rw [show 4 * j + 2 = 4 * j + 1 + 1 from rfl, Finset.prod_Ico_succ_top (by omega)]
  rw [show 4 * j + 1 = 4 * j + 0 + 1 from rfl, Finset.prod_Ico_succ_top (by omega)]
  simp [mul_assoc]

/-- Every populated node of the tree is the product of the primes covered by
its subtree's leaf groups. -/
theorem treeLevel_getD (l : Nat) : ∀ j, j < layerCounts l →
    (treeLevel l).getD j 0 =
      ∏ i ∈ Finset.Ico (4 * (j * 2 ^ l)) (4 * min ((j + 1) * 2 ^ l) 878),
        Nat.nth Nat.Prime i := by
  induction l with
  | zero =>
    intro j hj
    have hj878 : j < 878 := hj
    show treeLevel0.getD j 0 = _
    rw [treeLevel0_getD hj878]
    have h0 : 4 * (j * 2 ^ 0) = 4 * j := by simp
    have h4 : 4 * min ((j + 1) * 2 ^ 0) 878 = 4 * j + 4 := by
      simp only [pow_zero, mul_one]
      omega
    rw [h0, h4]
  | succ l ih =>
    intro j hj
    have hc := layerCounts_eq l
    have hj878 : j < 878 := lt_of_lt_of_le hj (layerCounts_le (l + 1))
    have h1024 : j < FACTOR_TREE_ENTRIES_PER_LEVEL := by
      show j < 4096 / (64 / 16)
      omega
    have hstep : (treeLevel (l + 1)).getD j 0 =
        (if 2 * j + 1 < layerCounts l then
          (treeLevel l).getD (2 * j) 0 * (treeLevel l).getD (2 * j + 1) 0
        else if layerCounts l % 2 = 1 ∧ 2 * j + 1 = layerCounts l then
          (treeLevel l).getD (layerCounts l - 1) 0
        else 0) := by
      show (nextLayer (treeLevel l) (layerCounts l)).getD j 0 = _
      unfold nextLayer
      rw [getD_range_map h1024]
    -- `j < layerCounts (l+1)` forces `2j + 1 ≤ layerCounts l`
    have hj2 : 2 * j + 1 ≤ layerCounts l := by
      have hj2' : j < (layerCounts l + 1) / 2 := hj
      omega
    rcases Nat.lt_or_ge (2 * j + 1) (layerCounts l) with hlt | hge
    · -- interior node: product of the two children
      have hleft := ih (2 * j) (by omega)
      have hright := ih (2 * j + 1) hlt
      have hmid : (2 * j + 1) * 2 ^ l ≤ 877 := by
        have hle : 2 * j + 1 ≤ 877 / 2 ^ l := by omega
        exact le_trans (Nat.mul_le_mul_right _ hle)
          (Nat.div_mul_le_self 877 (2 ^ l))
      have hminmid : min ((2 * j + 1) * 2 ^ l) 878 = (2 * j + 1) * 2 ^ l := by omega
      have hab : 4 * (2 * j * 2 ^ l) ≤ 4 * ((2 * j + 1) * 2 ^ l) := by
        apply Nat.mul_le_mul_left
        nlinarith [Nat.one_le_two_pow (n := l)]
      have hbc : 4 * ((2 * j + 1) * 2 ^ l) ≤ 4 * min ((2 * j + 1 + 1) * 2 ^ l) 878 := by
        apply Nat.mul_le_mul_left
        have h1 : (2 * j + 1) * 2 ^ l ≤ (2 * j + 1 + 1) * 2 ^ l := by
          apply Nat.mul_le_mul_right
          omega
        omega
      rw [hstep, if_pos hlt, hleft, hright, hminmid]
      rw [Finset.prod_Ico_consecutive (fun i => Nat.nth Nat.Prime i) hab hbc]
      rw [show 4 * (2 * j * 2 ^ l) = 4 * (j * 2 ^ (l + 1)) from by ring]
      rw [show (2 * j + 1 + 1) * 2 ^ l = (j + 1) * 2 ^ (l + 1) from by ring]
    · -- trailing carry: the odd last node moves up unchanged
      have heq : 2 * j + 1 = layerCounts l := by omega
      have hodd : layerCounts l % 2 = 1 := by omega
      have hcarry := ih (2 * j) (by omega)
      have hbig : 878 ≤ (2 * j + 1) * 2 ^ l := by
        have hlt877 : 877 < (877 / 2 ^ l + 1) * 2 ^ l :=
          (Nat.div_lt_iff_lt_mul (by positivity)).1 (Nat.lt_succ_self _)
        rw [heq, hc]
        exact hlt877
      have hbig2 : 878 ≤ (2 * j + 1 + 1) * 2 ^ l := by
        have : (2 * j + 1) * 2 ^ l ≤ (2 * j + 1 + 1) * 2 ^ l := by
          apply Nat.mul_le_mul_right
          omega
        omega
      rw [hstep, if_neg (by omega), if_pos ⟨hodd, heq⟩]
      rw [show layerCounts l - 1 = 2 * j from by omega]
      rw [hcarry]
      have e1 : 4 * (2 * j * 2 ^ l) = 4 * (j * 2 ^ (l + 1)) := by ring
      have e2 : min ((2 * j + 1) * 2 ^ l) 878 = 878 := by omega
      have e3 : min ((j + 1) * 2 ^ (l + 1)) 878 = 878 := by
        have hr : (j + 1) * 2 ^ (l + 1) = (2 * j + 1 + 1) * 2 ^ l := by ring
        rw [hr]
        omega
      rw [e1, e2, e3]

theorem treeLevel_getD_dvd {i : Nat} (l : Nat) (hi : i < 3512) :
    Nat.nth Nat.Prime i ∣ (treeLevel l).getD (i / 4 / 2 ^ l) 0 := by
  have hj : i / 4 / 2 ^ l < layerCounts l := by
    rw [layerCounts_eq]
    have h1 : i / 4 ≤ 877 := by omega
    have h2 : i / 4 / 2 ^ l ≤ 877 / 2 ^ l := Nat.div_le_div_right h1
    omega
  rw [treeLevel_getD l _ hj]
  apply Finset.dvd_prod_of_mem
  rw [Finset.mem_Ico]
  constructor
  · have h1 : i / 4 / 2 ^ l * 2 ^ l ≤ i / 4 := Nat.div_mul_le_self _ _
    have h2 : 4 * (i / 4) ≤ i := by omega
    exact le_trans (Nat.mul_le_mul_left _ h1) h2
  · have h3 : i / 4 < (i / 4 / 2 ^ l + 1) * 2 ^ l :=
      (Nat.div_lt_iff_lt_mul (by positivity)).1 (Nat.lt_succ_self _)
    have h4 : i < 4 * ((i / 4 / 2 ^ l + 1) * 2 ^ l) := by
      have h5 : i / 4 + 1 ≤ (i / 4 / 2 ^ l + 1) * 2 ^ l := h3
      calc i < 4 * (i / 4 + 1) := by omega
      _ ≤ 4 * ((i / 4 / 2 ^ l + 1) * 2 ^ l) := Nat.mul_le_mul_left _ h5
    rcases le_or_lt ((i / 4 / 2 ^ l + 1) * 2 ^ l) 878 with hm | hm
    · rw [min_eq_left hm]
      exact h4
    · rw [min_eq_right (le_of_lt hm)]
      omega

theorem sccIdx_eq {g m lvl : Nat} (hg : g < 2 ^ m) (hlvl : lvl ≤ m) :
    sccIdx g m lvl = g >>> lvl := by
  unfold sccIdx
  by_cases h : lvl = m
  · rw [if_pos h, h]
    rw [Nat.shiftRight_eq_div_pow]
    exact (Nat.div_eq_of_lt hg).symm
  · rw [if_neg h]
    have hsl : (1 : Nat) <<< (m - lvl) = 2 ^ (m - lvl) := by
      rw [Nat.shiftLeft_eq, one_mul]
    rw [hsl]
    apply Nat.and_pow_two_sub_one_of_lt_two_pow
    rw [Nat.shiftRight_eq_div_pow]
    rw [Nat.div_lt_iff_lt_mul (by positivity)]
    rw [← pow_add]
    have : m - lvl + lvl = m := by omega
    rw [this]
    exact hg

theorem sccAux_true {p g m : Nat} (hp : 2 ≤ p) (hg : g < 2 ^ m)
    (hm : m < FACTOR_TREE_LEVELS) (hg1024 : g < FACTOR_TREE_ENTRIES_PER_LEVEL)
    (hdvd : ∀ lvl, lvl ≤ m → p ∣ (treeLevel lvl).getD (g >>> lvl) 0) :
    ∀ lvl, lvl ≤ m → ∀ cur, p ∣ cur → sccAux g m lvl cur = true := by
  have hidx1024 : ∀ lvl : Nat, g >>> lvl < FACTOR_TREE_ENTRIES_PER_LEVEL := by
    intro lvl
    have : g >>> lvl ≤ g := by
      rw [Nat.shiftRight_eq_div_pow]
      exact Nat.div_le_self _ _
    omega
  intro lvl
  induction lvl with
  | zero =>
    intro hle cur hcur
    have hentry : get_entry 0 (sccIdx g m 0) = some ((treeLevel 0).getD (g >>> 0) 0) := by
      rw [sccIdx_eq hg hle]
      unfold get_entry
      rw [if_pos ⟨by omega, hidx1024 0⟩]
    have hgcd : p ∣ Nat.gcd cur ((treeLevel 0).getD (g >>> 0) 0) :=
      Nat.dvd_gcd hcur (hdvd 0 hle)
    have hne : ¬ Nat.gcd cur ((treeLevel 0).getD (g >>> 0) 0) = 1 := by
      intro h1
      rw [h1] at hgcd
      have := Nat.le_of_dvd (by omega) hgcd
      omega
    simp only [sccAux, hentry]
    rw [if_neg hne]
  | succ lvl ih =>
    intro hle cur hcur
    have hentry : get_entry (lvl + 1) (sccIdx g m (lvl + 1)) =
        some ((treeLevel (lvl + 1)).getD (g >>> (lvl + 1)) 0) := by
      rw [sccIdx_eq hg hle]
      unfold get_entry
      rw [if_pos ⟨by omega, hidx1024 (lvl + 1)⟩]
    have hgcd : p ∣ Nat.gcd cur ((treeLevel (lvl + 1)).getD (g >>> (lvl + 1)) 0) :=
      Nat.dvd_gcd hcur (hdvd (lvl + 1) hle)
    have hne : ¬ Nat.gcd cur ((treeLevel (lvl + 1)).getD (g >>> (lvl + 1)) 0) = 1 := by
      intro h1
      rw [h1] at hgcd
      have := Nat.le_of_dvd (by omega) hgcd
      omega
    simp only [sccAux, hentry]
    rw [if_neg hne]
    exact ih (by omega) _ hgcd

theorem bit_count_bounds {i np : Nat} (hi : i < np) (hnp : np ≤ 3512) :
    i / 4 < 2 ^ (max (bit_count np - LIMB_BITS / 32) 0) ∧
      max (bit_count np - LIMB_BITS / 32) 0 < FACTOR_TREE_LEVELS := by
  have hnp0 : np ≠ 0 := by omega
  have hmax : max (bit_count np - LIMB_BITS / 32) 0 = bit_count np - 2 :=
    Nat.max_eq_left (Nat.zero_le _)
  have hbc : bit_count np = Nat.log2 np + 1 := by
    unfold bit_count
    rw [if_neg (by simpa using hnp0)]
  have hnplt : np < 2 ^ (Nat.log2 np + 1) := (Nat.log2_lt hnp0).1 (Nat.lt_succ_self _)
  have hlog_le : Nat.log2 np < 12 := (Nat.log2_lt hnp0).2 (by omega)
  rw [hmax, hbc]
  constructor
  · rcases Nat.lt_or_ge (Nat.log2 np) 2 with hsmall | hbig
    · have hnp3 : np < 4 := by
        have h4 : (2 : Nat) ^ (Nat.log2 np + 1) ≤ 4 := by
          have : Nat.log2 np + 1 ≤ 2 := by omega
          calc (2 : Nat) ^ (Nat.log2 np + 1) ≤ 2 ^ 2 := Nat.pow_le_pow_right (by omega) this
          _ = 4 := by norm_num
        omega
      have hm0 : Nat.log2 np + 1 - 2 = 0 := by omega
      rw [hm0]
      omega
    · have hm1 : Nat.log2 np + 1 - 2 = Nat.log2 np - 1 := by omega
      rw [hm1]
      have hp4 : (2 : Nat) ^ (Nat.log2 np + 1) = 4 * 2 ^ (Nat.log2 np - 1) := by
        rw [show Nat.log2 np + 1 = Nat.log2 np - 1 + 2 from by omega, pow_add]
        ring
      rw [hp4] at hnplt
      omega
  · show Nat.log2 np + 1 - 2 < 13 - 64 / 32
    omega

theorem should_check_group_of_dvd {x np i : Nat} (hnp : np ≤ 3512) (hi : i < np)
    (hdvd : Nat.nth Nat.Prime i ∣ x) :
    should_check_group x (i / 4) (max (bit_count np - LIMB_BITS / 32) 0) = true := by
  obtain ⟨hg, hm⟩ := bit_count_bounds hi hnp
  have hp2 : 2 ≤ Nat.nth Nat.Prime i := nth_prime_two_le i
  have hg1024 : i / 4 < FACTOR_TREE_ENTRIES_PER_LEVEL := by
    show i / 4 < 4096 / (64 / 16)
    omega
  apply sccAux_true hp2 hg hm hg1024 _ _ le_rfl x hdvd
  intro lvl _
  rw [Nat.shiftRight_eq_div_pow]
  exact treeLevel_getD_dvd lvl (by omega)

theorem factor_trial_tree_mem {x np i : Nat} (hx : 1 < x) (hnp : np ≤ 3512)
    (hi : i < np) (hdvd : Nat.nth Nat.Prime i ∣ x) :
    ∃ found, factor_trial_tree x np = some found ∧ i ∈ found := by
  have hx1 : ¬ x ≤ 1 := by omega
  refine ⟨_, by rw [factor_trial_tree, if_neg hx1], ?_⟩
  apply List.mem_flatMap.2
  refine ⟨i / 4, List.mem_range.2 ?_, ?_⟩
  · show i / 4 < (np + LIMB_BITS / 16 - 1) / (LIMB_BITS / 16)
    norm_num [LIMB_BITS]
    omega
  · rw [if_pos (should_check_group_of_dvd hnp hi hdvd)]
    apply List.mem_filterMap.2
    refine ⟨i % 4, List.mem_range.2 (by norm_num [LIMB_BITS]; omega), ?_⟩
    have hguard : LIMB_BITS / 16 * (i / 4) + i % 4 < primes3512.length ∧
        LIMB_BITS / 16 * (i / 4) + i % 4 < np ∧
        x % primes3512.getD (LIMB_BITS / 16 * (i / 4) + i % 4) 0 = 0 := by
      have hrec : LIMB_BITS / 16 * (i / 4) + i % 4 = i := by
        show 64 / 16 * (i / 4) + i % 4 = i
        omega
      rw [hrec, primes3512_length, primes3512_getD' (by omega)]
      exact ⟨by omega, hi, mod_eq_zero_of_dvd hdvd⟩
    rw [if_pos hguard]
    have hrec : LIMB_BITS / 16 * (i / 4) + i % 4 = i := by
      show 64 / 16 * (i / 4) + i % 4 = i
      omega
    rw [hrec]

theorem some_ite_eq_some {c : Prop} [Decidable c] {v b : Nat}
    (h : (if c then some v else none) = some b) : c ∧ b = v := by
  by_cases hc : c
  · rw [if_pos hc] at h
    exact ⟨hc, (Option.some.inj h).symm⟩
  · rw [if_neg hc] at h
    cases h

theorem factor_trial_tree_sound {x np : Nat} (hx : 1 < x) {found : List Nat}
    (h : factor_trial_tree x np = some found) :
    (∀ i ∈ found, i < np ∧ Nat.nth Nat.Prime i ∣ x) ∧ List.Pairwise (· < ·) found := by
  have hx1 : ¬ x ≤ 1 := by omega
  rw [factor_trial_tree, if_neg hx1] at h
  obtain rfl : found = _ := (Option.some.inj h).symm
  constructor
  · intro i hi
    obtain ⟨a, ha, hblk⟩ := List.mem_flatMap.1 hi
    by_cases hscg : should_check_group x a (max (bit_count np - LIMB_BITS / 32) 0) = true
    · rw [if_pos hscg] at hblk
      obtain ⟨j, hj, hjf⟩ := List.mem_filterMap.1 hblk
      obtain ⟨⟨hlen, hltnp, hmod⟩, rfl⟩ := some_ite_eq_some hjf
      rw [primes3512_length] at hlen
      refine ⟨hltnp, ?_⟩
      rw [primes3512_getD' hlen] at hmod
      exact Nat.dvd_of_mod_eq_zero hmod
    · rw [if_neg hscg] at hblk
      cases hblk
  · rw [List.pairwise_flatMap]
    constructor
    · intro a ha
      by_cases hscg : should_check_group x a (max (bit_count np - LIMB_BITS / 32) 0) = true
      · rw [if_pos hscg]
        rw [List.pairwise_filterMap]
        apply (List.pairwise_lt_range _).imp
        intro j j' hjj' b hb b' hb'
        rw [Option.mem_def] at hb hb'
        obtain ⟨-, rfl⟩ := some_ite_eq_some hb
        obtain ⟨-, rfl⟩ := some_ite_eq_some hb'
        omega
      · rw [if_neg hscg]
        exact List.Pairwise.nil
    · apply (List.pairwise_lt_range _).imp
      intro a b hab k hk k' hk'
      have hget : ∀ c kk, kk ∈ (if should_check_group x c
            (max (bit_count np - LIMB_BITS / 32) 0) = true then
          (List.range (LIMB_BITS / 16)).filterMap fun j =>
            if LIMB_BITS / 16 * c + j < primes3512.length ∧
                LIMB_BITS / 16 * c + j < np ∧
                x % primes3512.getD (LIMB_BITS / 16 * c + j) 0 = 0 then
              some (LIMB_BITS / 16 * c + j)
            else none
        else []) → ∃ j, j < LIMB_BITS / 16 ∧ kk = LIMB_BITS / 16 * c + j := by
        intro c kk hkk
        by_cases hscg : should_check_group x c (max (bit_count np - LIMB_BITS / 32) 0) = true
        · rw [if_pos hscg] at hkk
          obtain ⟨j, hj, hjf⟩ := List.mem_filterMap.1 hkk
          obtain ⟨-, rfl⟩ := some_ite_eq_some hjf
          exact ⟨j, List.mem_range.1 hj, rfl⟩
        · rw [if_neg hscg] at hkk
          cases hkk
      obtain ⟨j, hjlt, rfl⟩ := hget a k hk
      obtain ⟨j', hjlt', rfl⟩ := hget b k' hk'
      have h4 : LIMB_BITS / 16 = 4 := by norm_num [LIMB_BITS]
      rw [h4] at hjlt hjlt' ⊢
      omega

-- ------------------------------------------------------------------
-- The engine: outcome classification
-- ------------------------------------------------------------------

theorem shiftRight_trailingZeros_pos {n : Nat} (hn : 0 < n) : 0 < n >>> trailingZeros n := by
  rw [Nat.shiftRight_eq_div_pow, trailingZeros_spec hn]
  exact Nat.div_pos (Nat.le_of_dvd hn (Nat.ord_proj_dvd n 2)) (by positivity)

theorem factor_trial_cases (n np : Nat) :
    (n = 0 ∧ factor_trial n np = TrialOutcome.noneResult) ∨
    (n ≠ 0 ∧ 3512 < np ∧ factor_trial n np = TrialOutcome.panicked) ∨
    (n ≠ 0 ∧ np ≤ 3512 ∧ ∃ f c, factor_trial n np = TrialOutcome.ok f c) := by
  by_cases h0 : n = 0
  · exact Or.inl ⟨h0, by rw [factor_trial, if_pos h0]⟩
  · right
    by_cases hnp : 3512 < np
    · exact Or.inl ⟨h0, hnp, by rw [factor_trial, if_neg h0, if_pos hnp]⟩
    · right
      refine ⟨h0, by omega, ?_⟩
      rw [factor_trial, if_neg h0, if_neg hnp]
      by_cases hsmall : n < 2 ^ 64
      · rw [if_pos hsmall]
        exact ⟨_, _, rfl⟩
      · rw [if_neg hsmall]
        by_cases h1 : n >>> trailingZeros n = 1
        · rw [if_pos h1]
          exact ⟨_, _, rfl⟩
        · rw [if_neg h1]
          have hn1 : 1 < n >>> trailingZeros n := by
            have := shiftRight_trailingZeros_pos (n := n) (by omega)
            omega
          have hx1 : ¬ n >>> trailingZeros n ≤ 1 := by omega
          rw [show factor_trial_tree (n >>> trailingZeros n) np = some _ from
            by rw [factor_trial_tree, if_neg hx1]]
          exact ⟨_, _, rfl⟩

theorem goodCache_sorted_lt {c : List Nat} (hc : goodCache c) :
    List.Pairwise (· < ·) c := by
  rw [List.pairwise_iff_getElem]
  intro i j hi hj hij
  rw [← getD_eq_getElem hi, ← getD_eq_getElem hj, hc.2 i hi, hc.2 j hj]
  exact nth_prime_lt.2 hij

theorem nextLayer_getD {prev : List Nat} {cnt j : Nat}
    (hj : j < FACTOR_TREE_ENTRIES_PER_LEVEL) :
    (nextLayer prev cnt).getD j 0 =
      if 2 * j + 1 < cnt then prev.getD (2 * j) 0 * prev.getD (2 * j + 1) 0
      else if cnt % 2 = 1 ∧ 2 * j + 1 = cnt then prev.getD (cnt - 1) 0
      else 0 := by
  unfold nextLayer
  rw [getD_range_map hj]

-- ------------------------------------------------------------------
-- Claim theorems
-- ------------------------------------------------------------------

/-- Claim C1 (code bug): the round-trip identity `sign × ∏ prime^exponent ×
cofactor = n` fails on the single-limb fast path.  At the failing input
`n = 12, num_primes = 10` the engine returns the complete factorization
`{2: 2, 3: 1}` but leaves `n` unchanged at 12, so the product over the
recorded pairs times the residual value left in `n` is 144, not 12. -/
theorem claim_C1_roundtrip_fails_on_single_limb :
    factor_trial 12 10 = TrialOutcome.ok [(2, 2), (3, 1)] 12 ∧
    prodFactors [(2, 2), (3, 1)] * 12 ≠ 12 := by decide

/-- Claim C2: for every `n > 0` and prime `p`, `remove_power` returns the
exact multiplicity `e = v_p(n)` together with `n / p^e`; the ascending
binary-lifting phase followed by the descending cleanup
(`remove_power_ascending`) likewise computes the exact multiplicity; the
returned exponent satisfies `p^e ∣ n` and `p^(e+1) ∤ n`; and `p = 2` is
resolved by the trailing-zero-bit count. -/
theorem claim_C2_power_extraction (n p : Nat) (hn : 0 < n) (hp : Nat.Prime p) :
    remove_power n p = some (n.factorization p, n / p ^ n.factorization p) ∧
    remove_power_ascending n p = (n.factorization p, n / p ^ n.factorization p) ∧
    p ^ n.factorization p ∣ n ∧ ¬ p ^ (n.factorization p + 1) ∣ n ∧
    remove_power n 2 = some (trailingZeros n, n >>> trailingZeros n) := by
  refine ⟨remove_power_spec hp hn, remove_power_ascending_spec hp hn,
    Nat.ord_proj_dvd n p, Nat.pow_succ_factorization_not_dvd (by omega) hp, ?_⟩
  rw [remove_power_spec Nat.prime_two hn, trailingZeros_spec hn,
    Nat.shiftRight_eq_div_pow]

theorem claim_C2_witness :
    0 < 24 ∧ Nat.Prime 3 ∧
    (remove_power 24 3 = some ((24 : Nat).factorization 3,
        24 / 3 ^ (24 : Nat).factorization 3) ∧
      remove_power_ascending 24 3 = ((24 : Nat).factorization 3,
        24 / 3 ^ (24 : Nat).factorization 3) ∧
      3 ^ (24 : Nat).factorization 3 ∣ 24 ∧
      ¬ 3 ^ ((24 : Nat).factorization 3 + 1) ∣ 24 ∧
      remove_power 24 2 = some (trailingZeros 24, 24 >>> trailingZeros 24)) :=
  ⟨by decide, by norm_num,
    claim_C2_power_extraction 24 3 (by decide) (by norm_num)⟩

/-- Claim C3 (tree soundness, no false negatives): for `x > 1`,
`num_primes ≤ 3512` and a prime with cache index `i < num_primes` dividing
`x`, the GCD path-walk flags the prime's leaf group (`should_check_group`
returns `true` for group `i / 4`) and the index `i` appears in the list
returned by `factor_trial_tree`. -/
theorem claim_C3_tree_soundness (x np i : Nat) (hx : 1 < x) (hnp : np ≤ 3512)
    (hi : i < np) (hdvd : Nat.nth Nat.Prime i ∣ x) :
    should_check_group x (i / 4) (max (bit_count np - LIMB_BITS / 32) 0) = true ∧
    ∃ found, factor_trial_tree x np = some found ∧ i ∈ found :=
  ⟨should_check_group_of_dvd hnp hi hdvd, factor_trial_tree_mem hx hnp hi hdvd⟩

theorem claim_C3_witness :
    (1 : Nat) < 7 ∧ (10 : Nat) ≤ 3512 ∧ (3 : Nat) < 10 ∧ Nat.nth Nat.Prime 3 ∣ 7 ∧
    (should_check_group 7 (3 / 4) (max (bit_count 10 - LIMB_BITS / 32) 0) = true ∧
      ∃ found, factor_trial_tree 7 10 = some found ∧ 3 ∈ found) := by
  have hdvd : Nat.nth Nat.Prime 3 ∣ 7 := by
    rw [nth_prime_three]
  exact ⟨by decide, by decide, by decide, hdvd,
    claim_C3_tree_soundness 7 10 3 (by decide) (by decide) (by decide) hdvd⟩

/-- Claim C4 (failure modes): `factor_trial` returns `None` exactly when the
input is zero, panics exactly when the input is nonzero and `num_primes`
exceeds 3512, and on every other input terminates normally with a (possibly
empty) factorization. -/
theorem claim_C4_failure_modes (n np : Nat) :
    (factor_trial n np = TrialOutcome.noneResult ↔ n = 0) ∧
    (factor_trial n np = TrialOutcome.panicked ↔ n ≠ 0 ∧ 3512 < np) ∧
    (n ≠ 0 → np ≤ 3512 → ∃ f c, factor_trial n np = TrialOutcome.ok f c) := by
  rcases factor_trial_cases n np with ⟨h0, he⟩ | ⟨h0, hnp, he⟩ | ⟨h0, hnp, f, c, he⟩
  · rw [he]
    refine ⟨⟨fun _ => h0, fun _ => rfl⟩, iff_of_false (by simp) ?_, ?_⟩
    · rintro ⟨hne, -⟩
      exact hne h0
    · intro hne
      exact absurd h0 hne
  · rw [he]
    exact ⟨iff_of_false (by simp) h0, ⟨fun _ => ⟨h0, hnp⟩, fun _ => rfl⟩,
      fun _ hle => absurd hnp (by omega)⟩
  · rw [he]
    refine ⟨iff_of_false (by simp) h0, iff_of_false (by simp) ?_, fun _ _ => ⟨f, c, rfl⟩⟩
    rintro ⟨-, hgt⟩
    omega

theorem claim_C4_witness :
    (5 : Nat) ≠ 0 ∧ (10 : Nat) ≤ 3512 ∧
    (∃ f c, factor_trial 5 10 = TrialOutcome.ok f c) :=
  ⟨by decide, by decide, (claim_C4_failure_modes 5 10).2.2 (by decide) (by decide)⟩

/-- Claim C5 (prime-cache content): after any sequence of cache operations
starting from the seeded cache, the cache is exactly an initial segment of
the primes — entry `j` is the `(j+1)`-th prime, the entries are strictly
increasing (hence no duplicates), every entry is prime — and
`get_nth_prime_using_cache i` returns the `(i+1)`-th prime. -/
theorem claim_C5_prime_cache_content (ops : List CacheOp) (i : Nat) :
    (∀ j, j < (applyOps initCache ops).length →
      (applyOps initCache ops).getD j 0 = Nat.nth Nat.Prime j) ∧
    List.Pairwise (· < ·) (applyOps initCache ops) ∧
    (∀ p ∈ applyOps initCache ops, Nat.Prime p) ∧
    (get_nth_prime_using_cache i (applyOps initCache ops)).1 = Nat.nth Nat.Prime i := by
  have hg := applyOps_good ops initCache initCache_good
  refine ⟨fun j hj => hg.2 j hj, goodCache_sorted_lt hg, ?_, ?_⟩
  · intro p hp
    obtain ⟨k, -, hk⟩ := goodCache_mem hg hp
    exact hk ▸ nth_prime_prime k
  · show (ensure_primes_computed (i + 1) (applyOps initCache ops)).getD i 0 = _
    have hs := ensure_primes_computed_spec hg (i + 1)
    refine hs.1.2 i ?_
    rw [hs.2]
    omega

theorem claim_C5_witness :
    ((3 : Nat) < (applyOps initCache [CacheOp.ensure 12]).length ∧
      (applyOps initCache [CacheOp.ensure 12]).getD 3 0 = Nat.nth Nat.Prime 3) ∧
    (get_nth_prime_using_cache 10 (applyOps initCache [CacheOp.ensure 12])).1 =
      Nat.nth Nat.Prime 10 :=
  ⟨⟨by decide, (claim_C5_prime_cache_content [CacheOp.ensure 12] 10).1 3 (by decide)⟩,
    (claim_C5_prime_cache_content [CacheOp.ensure 12] 10).2.2.2⟩

/-- Claim C6 (code bug): the spec's bounded-window scenario
`factor_trial(707, 10) = {7: 1} with cofactor 101 left in n` does not hold:
707 fits in one limb, so the fast path returns the complete factorization
`{7: 1, 101: 1}` — recording the prime 101, far beyond the first 10 primes —
and leaves `n` unchanged at 707. -/
theorem claim_C6_bounded_window_fails :
    factor_trial 707 10 = TrialOutcome.ok [(7, 1), (101, 1)] 707 ∧
    ¬ factor_trial 707 10 = TrialOutcome.ok [(7, 1)] 101 := by decide

/-- Claim C7 (counterexample): contrary to the claim that the divisibility
predicate reports the literal input 2 as prime, `is_prime_using_cache 2`
returns `false` on the seeded initial cache — the unguarded even-number
short-circuit rejects it. -/
theorem claim_C7_counterexample : ¬ (is_prime_using_cache 2 initCache = true) := by
  decide

/-- Claim C7 (amended): the divisibility predicate used to bootstrap
primality during cache growth rejects the literal input 2: for every cache
state, `is_prime_using_cache 2 cache = false`. -/
theorem claim_C7_amended (cache : List Nat) : is_prime_using_cache 2 cache = false :=
  rfl

/-- Claim C8 (product-tree node invariant): every populated node of the
initialized tree equals the product of all primes in its subtree's leaf
groups — level-0 entry `j` is the product of the `j`-th group of four
consecutive primes, each entry at level `l+1` is the product of its two
children, and an odd trailing node is carried up unchanged. -/
theorem claim_C8_tree_node_invariant (l j : Nat) (hl : l ≤ 10)
    (hj : j < layerCounts l) :
    (treeLevel l).getD j 0 =
      (∏ i ∈ Finset.Ico (4 * (j * 2 ^ l)) (4 * min ((j + 1) * 2 ^ l) 878),
        Nat.nth Nat.Prime i) ∧
    (j < 878 → treeLevel0.getD j 0 =
      ∏ i ∈ Finset.Ico (4 * j) (4 * j + 4), Nat.nth Nat.Prime i) ∧
    (2 * j + 1 < layerCounts l → (treeLevel (l + 1)).getD j 0 =
      (treeLevel l).getD (2 * j) 0 * (treeLevel l).getD (2 * j + 1) 0) ∧
    (layerCounts l % 2 = 1 ∧ 2 * j + 1 = layerCounts l →
      (treeLevel (l + 1)).getD j 0 = (treeLevel l).getD (layerCounts l - 1) 0) := by
  refine ⟨treeLevel_getD l j hj, fun h878 => treeLevel0_getD h878, ?_, ?_⟩
  · intro hlt
    have hc878 := layerCounts_le l
    have hj1024 : j < FACTOR_TREE_ENTRIES_PER_LEVEL := by
      show j < 4096 / (64 / 16)
      omega
    show (nextLayer (treeLevel l) (layerCounts l)).getD j 0 = _
    rw [nextLayer_getD hj1024, if_pos hlt]
  · rintro ⟨hodd, heq⟩
    have hc878 := layerCounts_le l
    have hj1024 : j < FACTOR_TREE_ENTRIES_PER_LEVEL := by
      show j < 4096 / (64 / 16)
      omega
    show (nextLayer (treeLevel l) (layerCounts l)).getD j 0 = _
    rw [nextLayer_getD hj1024, if_neg (by omega), if_pos ⟨hodd, heq⟩]

theorem claim_C8_witness :
    (0 : Nat) ≤ 10 ∧ 0 < layerCounts 0 ∧
    (treeLevel 0).getD 0 0 =
      ∏ i ∈ Finset.Ico (4 * (0 * 2 ^ 0)) (4 * min ((0 + 1) * 2 ^ 0) 878),
        Nat.nth Nat.Prime i :=
  ⟨by decide, by decide, (claim_C8_tree_node_invariant 0 0 (by decide) (by decide)).1⟩

/-- Claim C9 (cache monotonicity): across every sequence of
`ensure_primes_computed` and `extend_cache_to` operations the cache only
grows by appending — the starting state is a prefix of the result, the
length never decreases, and every already-populated index keeps its value. -/
theorem claim_C9_cache_monotonicity (c : List Nat) (ops : List CacheOp) :
    c <+: applyOps c ops ∧ c.length ≤ (applyOps c ops).length ∧
    ∀ i, i < c.length → (applyOps c ops).getD i 0 = c.getD i 0 := by
  have hpre := applyOps_isPrefixOf ops c
  exact ⟨hpre, hpre.length_le, fun i hi => getD_of_isPrefixOf hpre hi⟩

theorem claim_C9_witness :
    (3 : Nat) < initCache.length ∧
    (applyOps initCache [CacheOp.ensure 12, CacheOp.extend 14]).getD 3 0 =
      initCache.getD 3 0 :=
  ⟨by decide, (claim_C9_cache_monotonicity initCache
    [CacheOp.ensure 12, CacheOp.extend 14]).2.2 3 (by decide)⟩

/-- Claim C10 (tree query: no false positives, ordered output): for `x > 1`
and `num_primes ≤ 3512`, `factor_trial_tree` returns a list in which every
index `i` satisfies `i < num_primes` and the `i`-th cached prime divides
`x`, and the indices are strictly increasing. -/
theorem claim_C10_tree_no_false_positives (x np : Nat) (hx : 1 < x)
    (hnp : np ≤ 3512) :
    ∃ found, factor_trial_tree x np = some found ∧
      (∀ i ∈ found, i < np ∧ Nat.nth Nat.Prime i ∣ x) ∧
      List.Pairwise (· < ·) found := by
  cases h : factor_trial_tree x np with
  | none =>
    rw [factor_trial_tree, if_neg (by omega : ¬ x ≤ 1)] at h
    cases h
  | some found =>
    exact ⟨found, rfl, (factor_trial_tree_sound hx h).1, (factor_trial_tree_sound hx h).2⟩

theorem claim_C10_witness :
    (1 : Nat) < 707 ∧ (10 : Nat) ≤ 3512 ∧
    ∃ found, factor_trial_tree 707 10 = some found ∧
      (∀ i ∈ found, i < 10 ∧ Nat.nth Nat.Prime i ∣ 707) ∧
      List.Pairwise (· < ·) found :=
  ⟨by decide, by decide,
    claim_C10_tree_no_false_positives 707 10 (by decide) (by decide)⟩
